import Mathlib

/-!
Verification of the MLFindSpam text-cleaning and spam-feature-extraction core.

The Python sources modelled here are `src/prepare.py` / `src/predict.py`
(`clean_text`) and `src/feature_extractor.py` (`SpamFeatureExtractor` and
`add_spam_features`).  A Python string is modelled as a list of Unicode code
points (`PyStr`); Python floats produced by the extractor are modelled as
`Option ℚ`, with `none` standing for IEEE NaN (which `np.mean([])` returns)
and `some q` for an ordinary finite value — every value the extractor
produces is either NaN or an exact rational, so no precision is lost.

Character-class modelling choices (each used consistently everywhere):
* `isSpace` is Python's whitespace class (shared by `str.split`, `str.strip`
  and the regex class `\s` for `str` patterns).
* `charLower` models `str.lower` on ASCII, Latin-1 and the Cyrillic block;
  code points outside those ranges are left unchanged.
* `decDigit` models the regex class `\d` / `str.isdigit` on the ASCII digits.
-/

/-- A Python string: its list of Unicode code points. -/
abbrev PyStr := List ℕ

/-- Code points of a Lean string literal, for writing concrete inputs. -/
def strLit (s : String) : PyStr := s.data.map Char.toNat

/-- Python's whitespace class (`str.isspace`, `str.split`, `str.strip`, `\s`). -/
def isSpace (c : ℕ) : Bool :=
  c == 9 || c == 10 || c == 11 || c == 12 || c == 13 ||
  c == 28 || c == 29 || c == 30 || c == 31 || c == 32 ||
  c == 133 || c == 160 || c == 5760 ||
  (decide (8192 ≤ c) && decide (c ≤ 8202)) ||
  c == 8232 || c == 8233 || c == 8239 || c == 8287 || c == 12288

/-- The regex class `\S`: any non-whitespace code point. -/
def nonspace (c : ℕ) : Bool := !isSpace c

/-- Model of `str.lower` on one code point: ASCII `A-Z`, Latin-1 `À-Þ`
(minus `×`), and the Cyrillic uppercase rows `Ѐ-Џ` and `А-Я`. -/
def charLower (c : ℕ) : ℕ :=
  if 65 ≤ c ∧ c ≤ 90 then c + 32
  else if 192 ≤ c ∧ c ≤ 222 ∧ c ≠ 215 then c + 32
  else if 1024 ≤ c ∧ c ≤ 1039 then c + 80
  else if 1040 ≤ c ∧ c ≤ 1071 then c + 32
  else c

/-- Model of `text.lower()`. -/
def pyLower (s : PyStr) : PyStr := s.map charLower

/-!
`clean_text` (identical in `src/prepare.py` and `src/predict.py`):

    text = text.lower()
    text = re.sub(r'http\S+|www\S+|https\S+', '', text, flags=re.MULTILINE)
    text = re.sub(r'\s+', ' ', text).strip()

The URL regex matches, at a position, the literal `http` (which subsumes the
`https\S+` alternative) or `www` followed by at least one non-space character,
and then greedily the rest of the non-space run.  `urlStart` is the test for a
match beginning at the head of a suffix; `removeUrlsAux` is `re.sub(…, '', …)`
as a left-to-right scan whose `skip` flag is true while the scanner is inside
a match consuming the remainder of the non-space run.
-/

/-- Does a match of `http\S+|www\S+|https\S+` begin at the head of `s`?
`[104,116,116,112]` is `"http"`, `[119,119,119]` is `"www"`; the `headD 32`
lookahead demands a non-space character right after the literal. -/
def urlStart (s : PyStr) : Bool :=
  (List.isPrefixOf [104, 116, 116, 112] s && nonspace ((s.drop 4).headD 32)) ||
  (List.isPrefixOf [119, 119, 119] s && nonspace ((s.drop 3).headD 32))

/-- `re.sub(r'http\S+|www\S+|https\S+', '', s)`: scan left to right; on a
match start, consume (greedy `\S+`) to the end of the non-space run. -/
def removeUrlsAux : Bool → PyStr → PyStr
  | _, [] => []
  | skip, c :: cs =>
    if skip && nonspace c then removeUrlsAux true cs
    else if urlStart (c :: cs) then removeUrlsAux true cs
    else c :: removeUrlsAux false cs

/-- URL removal as performed by `clean_text`. -/
def removeUrls (s : PyStr) : PyStr := removeUrlsAux false s

/-- `re.sub(r'\s+', ' ', s)`: each maximal whitespace run becomes one `' '`.
The flag records whether the scanner is inside a whitespace run. -/
def collapseAux : Bool → PyStr → PyStr
  | _, [] => []
  | inRun, c :: cs =>
    if isSpace c then
      (if inRun then collapseAux true cs else 32 :: collapseAux true cs)
    else c :: collapseAux false cs

/-- Whitespace collapsing as performed by `clean_text`. -/
def collapse (s : PyStr) : PyStr := collapseAux false s

/-- Leading-whitespace removal (the left half of `str.strip`). -/
def lstrip (s : PyStr) : PyStr := s.dropWhile isSpace

/-- Trailing-whitespace removal (the right half of `str.strip`). -/
def rstrip (s : PyStr) : PyStr := (s.reverse.dropWhile isSpace).reverse

/-- Model of `str.strip()`. -/
def stripStr (s : PyStr) : PyStr := rstrip (lstrip s)

/-- `clean_text` from `src/prepare.py` / `src/predict.py`: lowercase, drop
URL-like substrings, collapse whitespace runs to single spaces, strip. -/
def clean_text (text : PyStr) : PyStr :=
  stripStr (collapse (removeUrls (pyLower text)))

/- scratch examples removed; concrete evaluations appear as claim theorems below -/

/-!
`SpamFeatureExtractor` from `src/feature_extractor.py`.  The per-message body
of `transform` builds `feature_dict` and appends `list(feature_dict.values())`;
each dict entry is modelled by one definition below, named `f_` plus the dict
key (except `caps_ratio`/`digit_ratio`, modelled as `capsFrac`/`digitFrac`).
-/

/-- `str.split()` with no separator: maximal non-whitespace runs, no empties.
`acc` holds the current word reversed. -/
def splitAux : PyStr → List ℕ → List PyStr
  | [], acc => if acc.isEmpty then [] else [acc.reverse]
  | c :: cs, acc =>
    if isSpace c then
      (if acc.isEmpty then splitAux cs [] else acc.reverse :: splitAux cs [])
    else splitAux cs (c :: acc)

/-- Model of `text.split()`. -/
def pySplit (s : PyStr) : List PyStr := splitAux s []

/-- Python's `sub in s` substring test. -/
def isSubstr (sub : PyStr) : PyStr → Bool
  | [] => sub.isEmpty
  | c :: cs => sub.isPrefixOf (c :: cs) || isSubstr sub cs

/-- `re.search`: does `p` accept some suffix (i.e. match at some position)? -/
def searchAt (p : PyStr → Bool) : PyStr → Bool
  | [] => p []
  | c :: cs => p (c :: cs) || searchAt p cs

/-- The regex class `\d` on an ASCII decimal digit. -/
def decDigit (c : ℕ) : Bool := decide (48 ≤ c) && decide (c ≤ 57)

/-- Consume exactly `n` decimal digits, returning the rest of the string. -/
def matchDigits : ℕ → PyStr → Option PyStr
  | 0, s => some s
  | _ + 1, [] => none
  | n + 1, c :: cs => if decDigit c then matchDigits n cs else none

/-- Match `\d{3,4}-\d{3,4}` at the head of `r` (`45` is `'-'`); a repetition
bound succeeds iff some admissible repetition count lets the rest match. -/
def matchGroups34 (r : PyStr) : Bool :=
  (match matchDigits 3 r with
   | some (45 :: r2) => (matchDigits 3 r2).isSome || (matchDigits 4 r2).isSome
   | _ => false) ||
  (match matchDigits 4 r with
   | some (45 :: r2) => (matchDigits 3 r2).isSome || (matchDigits 4 r2).isSome
   | _ => false)

/-- Match `8-\d{3,4}-\d{3,4}` at the head (`56` is `'8'`, `45` is `'-'`). -/
def matchRuAlt1 : PyStr → Bool
  | 56 :: 45 :: r => matchGroups34 r
  | _ => false

/-- Match `\+7-\d{3}-\d{3}-\d{2}-\d{2}` at the head (`43` is `'+'`, `55` is `'7'`). -/
def matchRuAlt2 : PyStr → Bool
  | 43 :: 55 :: 45 :: r =>
    (match matchDigits 3 r with
     | some (45 :: r2) =>
       (match matchDigits 3 r2 with
        | some (45 :: r3) =>
          (match matchDigits 2 r3 with
           | some (45 :: r4) => (matchDigits 2 r4).isSome
           | _ => false)
        | _ => false)
     | _ => false)
  | _ => false

/-- `russian_phone_pattern = r'8-\d{3,4}-\d{3,4}|\+7-\d{3}-\d{3}-\d{2}-\d{2}'`
matching at the head of a suffix. -/
def ruPhoneAt (s : PyStr) : Bool := matchRuAlt1 s || matchRuAlt2 s

/-- `intl_phone_pattern = r'\d{3,4}-\d{3,4}|\d{5,}'` matching at the head. -/
def intlPhoneAt (s : PyStr) : Bool := matchGroups34 s || (matchDigits 5 s).isSome

/-- One or more decimal digits (`\d+`), then any continuation accepted by `k`:
after the first digit, at every point either consume another digit or stop. -/
def digitsThen (k : PyStr → Bool) : PyStr → Bool
  | [] => false
  | c :: cs => decDigit c && digitsRest k cs
where
  digitsRest (k : PyStr → Bool) : PyStr → Bool
    | [] => k []
    | c :: cs => (decDigit c && digitsRest k cs) || k (c :: cs)

/-- An optional single whitespace character (`\s?`), then `k`. -/
def optSpaceThen (k : PyStr → Bool) (s : PyStr) : Bool :=
  k s || (match s with | c :: cs => isSpace c && k cs | [] => false)

/-- Does some member of `ws` occur literally at the head of `s`? -/
def anyPrefixOf (ws : List PyStr) (s : PyStr) : Bool :=
  ws.any (fun w => w.isPrefixOf s)

/-- `money_pattern_ru = r'\d+\s?(руб|тыс|млн|₽)|р\.|рубл'` at the head. -/
def moneyRuAt (s : PyStr) : Bool :=
  digitsThen (optSpaceThen (anyPrefixOf
    [strLit "руб", strLit "тыс", strLit "млн", strLit "₽"])) s ||
  (strLit "р.").isPrefixOf s ||
  (strLit "рубл").isPrefixOf s

/-- `money_pattern_en = r'\$\d+|£\d+|€\d+|\d+\s?(dollar|pound|euro)'` at the head. -/
def moneyEnAt (s : PyStr) : Bool :=
  (match s with
   | 36 :: r => (matchDigits 1 r).isSome
   | 163 :: r => (matchDigits 1 r).isSome
   | 8364 :: r => (matchDigits 1 r).isSome
   | _ => false) ||
  digitsThen (optSpaceThen (anyPrefixOf
    [strLit "dollar", strLit "pound", strLit "euro"])) s

/-- `self.russian_spam_keywords` (21 stems). -/
def russian_spam_keywords : List PyStr :=
  [strLit "срочно", strLit "внимание", strLit "выиграли", strLit "поздравляем",
   strLit "приз", strLit "бесплатно", strLit "акция", strLit "скидка",
   strLit "заблокирован", strLit "позвоните", strLit "кредит", strLit "займ",
   strLit "одобрен", strLit "деньги", strLit "рубл", strLit "тысяч",
   strLit "заработок", strLit "доход", strLit "получ", strLit "выплат",
   strLit "бонус"]

/-- `self.english_spam_keywords` (16 keywords). -/
def english_spam_keywords : List PyStr :=
  [strLit "winner", strLit "congratulations", strLit "won", strLit "prize",
   strLit "free", strLit "urgent", strLit "click", strLit "call",
   strLit "text", strLit "claim", strLit "limited", strLit "offer",
   strLit "guaranteed", strLit "cash", strLit "credit", strLit "loan"]

/-- Python's per-character `str.isupper`, on the ranges `charLower` handles. -/
def isUpperCp (c : ℕ) : Bool :=
  (decide (65 ≤ c) && decide (c ≤ 90)) ||
  (decide (192 ≤ c) && decide (c ≤ 222) && c != 215) ||
  (decide (1024 ≤ c) && decide (c ≤ 1071))

/-- `np.mean` over a list of naturals: NaN (`none`) on the empty list. -/
def npMean (l : List ℕ) : Option ℚ :=
  if l.isEmpty then none else some ((l.sum : ℚ) / (l.length : ℚ))

/-- `'length': len(text)`. -/
def f_length (m : PyStr) : ℚ := m.length

/-- `'word_count': len(text.split())`. -/
def f_word_count (m : PyStr) : ℚ := (pySplit m).length

/-- `'avg_word_length': np.mean([len(word) for word in text.split()]) if text else 0`.
Note the guard tests the string, not the token list, so a non-empty all-whitespace
string reaches `np.mean([])`, which is NaN (`none`). -/
def f_avg_word_length (m : PyStr) : Option ℚ :=
  if m ≠ [] then npMean ((pySplit m).map List.length) else some 0

/-- `url_pattern = r'http[s]?://|www\.|\.com|\.ru|\.net|\.org'`; searched in
`text_lower`, so the argument here is the lowercased message. -/
def urlSearch (tl : PyStr) : Bool :=
  isSubstr (strLit "http://") tl || isSubstr (strLit "https://") tl ||
  isSubstr (strLit "www.") tl || isSubstr (strLit ".com") tl ||
  isSubstr (strLit ".ru") tl || isSubstr (strLit ".net") tl ||
  isSubstr (strLit ".org") tl

/-- `'has_url': 1 if self.url_pattern.search(text_lower) else 0`. -/
def f_has_url (m : PyStr) : ℚ := if urlSearch (pyLower m) then 1 else 0

/-- `'has_russian_phone': 1 if self.russian_phone_pattern.search(text) else 0`. -/
def f_has_russian_phone (m : PyStr) : ℚ := if searchAt ruPhoneAt m then 1 else 0

/-- `'has_intl_phone': 1 if self.intl_phone_pattern.search(text) else 0`. -/
def f_has_intl_phone (m : PyStr) : ℚ := if searchAt intlPhoneAt m then 1 else 0

/-- `'has_money_ru': 1 if self.money_pattern_ru.search(text_lower) else 0`. -/
def f_has_money_ru (m : PyStr) : ℚ := if searchAt moneyRuAt (pyLower m) then 1 else 0

/-- `'has_money_en': 1 if self.money_pattern_en.search(text_lower) else 0`. -/
def f_has_money_en (m : PyStr) : ℚ := if searchAt moneyEnAt (pyLower m) then 1 else 0

/-- `'exclamation_count': text.count('!')` (`33` is `'!'`). -/
def f_exclamation_count (m : PyStr) : ℚ := m.count 33

/-- `'question_count': text.count('?')` (`63` is `'?'`). -/
def f_question_count (m : PyStr) : ℚ := m.count 63

/-- `'caps_ratio': sum(1 for c in text if c.isupper()) / len(text) if text else 0`. -/
def capsFrac (m : PyStr) : ℚ :=
  if m ≠ [] then ((m.countP isUpperCp : ℕ) : ℚ) / (m.length : ℚ) else 0

/-- `'digit_ratio': sum(1 for c in text if c.isdigit()) / len(text) if text else 0`. -/
def digitFrac (m : PyStr) : ℚ :=
  if m ≠ [] then ((m.countP decDigit : ℕ) : ℚ) / (m.length : ℚ) else 0

/-- `'russian_spam_words': sum(1 for word in self.russian_spam_keywords if word in text_lower)`. -/
def f_russian_spam_words (m : PyStr) : ℚ :=
  russian_spam_keywords.countP (fun w => isSubstr w (pyLower m))

/-- `'english_spam_words': sum(1 for word in self.english_spam_keywords if word in text_lower)`. -/
def f_english_spam_words (m : PyStr) : ℚ :=
  english_spam_keywords.countP (fun w => isSubstr w (pyLower m))

/-- `'has_cyrillic': 1 if re.search('[а-яА-Я]', text) else 0` — note the
character class covers `а-я` (1072-1103) and `А-Я` (1040-1071) only. -/
def f_has_cyrillic (m : PyStr) : ℚ :=
  if m.any (fun c => (decide (1072 ≤ c) && decide (c ≤ 1103)) ||
      (decide (1040 ≤ c) && decide (c ≤ 1071))) then 1 else 0

/-- `'has_latin': 1 if re.search('[a-zA-Z]', text) else 0`. -/
def f_has_latin (m : PyStr) : ℚ :=
  if m.any (fun c => (decide (97 ≤ c) && decide (c ≤ 122)) ||
      (decide (65 ≤ c) && decide (c ≤ 90))) then 1 else 0

/-- `'has_win_pattern': 1 if re.search(r'(выигра|won|winner)', text_lower) else 0`. -/
def f_has_win_pattern (m : PyStr) : ℚ :=
  if isSubstr (strLit "выигра") (pyLower m) || isSubstr (strLit "won") (pyLower m) ||
     isSubstr (strLit "winner") (pyLower m) then 1 else 0

/-- `'has_urgent_pattern': 1 if re.search(r'(срочно|urgent|attention|внимание)', text_lower) else 0`. -/
def f_has_urgent_pattern (m : PyStr) : ℚ :=
  if isSubstr (strLit "срочно") (pyLower m) || isSubstr (strLit "urgent") (pyLower m) ||
     isSubstr (strLit "attention") (pyLower m) ||
     isSubstr (strLit "внимание") (pyLower m) then 1 else 0

/-- `'has_free_pattern': 1 if re.search(r'(бесплатно|free|даром)', text_lower) else 0`. -/
def f_has_free_pattern (m : PyStr) : ℚ :=
  if isSubstr (strLit "бесплатно") (pyLower m) || isSubstr (strLit "free") (pyLower m) ||
     isSubstr (strLit "даром") (pyLower m) then 1 else 0

/-- `'has_click_pattern': 1 if re.search(r'(кликни|нажми|click|tap)', text_lower) else 0`. -/
def f_has_click_pattern (m : PyStr) : ℚ :=
  if isSubstr (strLit "кликни") (pyLower m) || isSubstr (strLit "нажми") (pyLower m) ||
     isSubstr (strLit "click") (pyLower m) || isSubstr (strLit "tap") (pyLower m) then 1 else 0

/-- `'has_block_pattern': 1 if re.search(r'(заблокирован|blocked|suspend)', text_lower) else 0`. -/
def f_has_block_pattern (m : PyStr) : ℚ :=
  if isSubstr (strLit "заблокирован") (pyLower m) || isSubstr (strLit "blocked") (pyLower m) ||
     isSubstr (strLit "suspend") (pyLower m) then 1 else 0

/-- `list(feature_dict.values())` for one message: the 21 entries in the
insertion order of `feature_dict` in `transform`. -/
def extractOne (m : PyStr) : List (Option ℚ) :=
  [some (f_length m), some (f_word_count m), f_avg_word_length m,
   some (f_has_url m), some (f_has_russian_phone m), some (f_has_intl_phone m),
   some (f_has_money_ru m), some (f_has_money_en m),
   some (f_exclamation_count m), some (f_question_count m),
   some (capsFrac m), some (digitFrac m),
   some (f_russian_spam_words m), some (f_english_spam_words m),
   some (f_has_cyrillic m), some (f_has_latin m),
   some (f_has_win_pattern m), some (f_has_urgent_pattern m),
   some (f_has_free_pattern m), some (f_has_click_pattern m),
   some (f_has_block_pattern m)]

/-- `SpamFeatureExtractor.transform`: start from `features = []` and append
one row per message. -/
def transform (X : List PyStr) : List (List (Option ℚ)) :=
  X.foldl (fun features text => features ++ [extractOne text]) []

/-- `add_spam_features`: `SpamFeatureExtractor().fit_transform(messages)`;
`fit` returns the (stateless) extractor, so this is `transform`. -/
def add_spam_features (messages : List PyStr) : List (List (Option ℚ)) :=
  transform messages

/-- `SpamFeatureExtractor.get_feature_names`. -/
def get_feature_names : List String :=
  ["length", "word_count", "avg_word_length",
   "has_url", "has_russian_phone", "has_intl_phone",
   "has_money_ru", "has_money_en",
   "exclamation_count", "question_count",
   "caps_ratio", "digit_ratio",
   "russian_spam_words", "english_spam_words",
   "has_cyrillic", "has_latin",
   "has_win_pattern", "has_urgent_pattern",
   "has_free_pattern", "has_click_pattern", "has_block_pattern"]

/-- The field table of spec section 4.1: the 21 field names in the spec's
order, each paired with its definition.  Stated from the spec, to be compared
with `extractOne` (value order) and `get_feature_names` (name order). -/
def specFieldTable : List (String × (PyStr → Option ℚ)) :=
  [("length", fun m => some (f_length m)),
   ("word_count", fun m => some (f_word_count m)),
   ("avg_word_length", fun m => f_avg_word_length m),
   ("has_url", fun m => some (f_has_url m)),
   ("has_russian_phone", fun m => some (f_has_russian_phone m)),
   ("has_intl_phone", fun m => some (f_has_intl_phone m)),
   ("has_money_ru", fun m => some (f_has_money_ru m)),
   ("has_money_en", fun m => some (f_has_money_en m)),
   ("exclamation_count", fun m => some (f_exclamation_count m)),
   ("question_count", fun m => some (f_question_count m)),
   ("caps_ratio", fun m => some (capsFrac m)),
   ("digit_ratio", fun m => some (digitFrac m)),
   ("russian_spam_words", fun m => some (f_russian_spam_words m)),
   ("english_spam_words", fun m => some (f_english_spam_words m)),
   ("has_cyrillic", fun m => some (f_has_cyrillic m)),
   ("has_latin", fun m => some (f_has_latin m)),
   ("has_win_pattern", fun m => some (f_has_win_pattern m)),
   ("has_urgent_pattern", fun m => some (f_has_urgent_pattern m)),
   ("has_free_pattern", fun m => some (f_has_free_pattern m)),
   ("has_click_pattern", fun m => some (f_has_click_pattern m)),
   ("has_block_pattern", fun m => some (f_has_block_pattern m))]

/-- Python division, which raises `ZeroDivisionError` on a zero denominator:
the fallible operation behind the extractor's only error branch. -/
def pyDiv (a b : ℚ) : Option ℚ := if b = 0 then none else some (a / b)

/-- `transform`'s per-message body with the two Python-level divisions made
explicit as fallible operations (`np.mean` never raises: on an empty list it
returns NaN, a value).  `none` is an uncaught `ZeroDivisionError`. -/
def extractChecked (m : PyStr) : Option (List (Option ℚ)) :=
  match (if m ≠ [] then pyDiv ((m.countP isUpperCp : ℕ) : ℚ) ((m.length : ℕ) : ℚ) else some 0),
        (if m ≠ [] then pyDiv ((m.countP decDigit : ℕ) : ℚ) ((m.length : ℕ) : ℚ) else some 0) with
  | some caps, some dig =>
    some [some (f_length m), some (f_word_count m), f_avg_word_length m,
          some (f_has_url m), some (f_has_russian_phone m), some (f_has_intl_phone m),
          some (f_has_money_ru m), some (f_has_money_en m),
          some (f_exclamation_count m), some (f_question_count m),
          some caps, some dig,
          some (f_russian_spam_words m), some (f_english_spam_words m),
          some (f_has_cyrillic m), some (f_has_latin m),
          some (f_has_win_pattern m), some (f_has_urgent_pattern m),
          some (f_has_free_pattern m), some (f_has_click_pattern m),
          some (f_has_block_pattern m)]
  | _, _ => none

/-!
Concrete test messages used by the claims.
-/

/-- The English spam message of spec section 8. -/
def winnerMsg : PyStr := strLit "WINNER! Call now to claim your FREE prize, www.spam.com"

/-- The Russian spam message of spec section 8. -/
def urgentMsgRu : PyStr := strLit "СРОЧНО! Вы выиграли приз!"

/-- A russian-phone witness input. -/
def ruPhoneMsg : PyStr := strLit "8-123-4567"

/-!
Auxiliary predicates for the idempotence proof of `clean_text`: a string with
no URL-pattern match anywhere, a string whose whitespace is all `' '`, and a
string without two adjacent whitespace characters.
-/

/-- Does the URL regex match at some position of `s`? -/
def hasUrl : PyStr → Bool
  | [] => false
  | c :: cs => urlStart (c :: cs) || hasUrl cs

/-- Every whitespace character of `s` is the plain space `' '` (32). -/
def spacesOk : PyStr → Bool
  | [] => true
  | c :: cs => (!isSpace c || c == 32) && spacesOk cs

/-- No two adjacent characters of `s` are both whitespace. -/
def noAdj : PyStr → Bool
  | c :: d :: r => (!(isSpace c && isSpace d)) && noAdj (d :: r)
  | _ => true

/-!
Helper lemmas.
-/

/-- Folding row-appends starting from `acc` yields `acc` followed by the map. -/
theorem foldl_append_rows (X : List PyStr) (acc : List (List (Option ℚ))) :
    X.foldl (fun features text => features ++ [extractOne text]) acc =
      acc ++ X.map extractOne := by
  induction X generalizing acc with
  | nil => simp
  | cons x xs ih => simp [List.foldl_cons, ih]

/-- If `p` accepts a suffix of `s`, then `re.search`-style scanning accepts `s`. -/
theorem searchAt_of_suffix {p : PyStr → Bool} {t s : PyStr} (hsuf : t <:+ s)
    (h : p t = true) : searchAt p s = true := by
  induction s with
  | nil => rw [List.suffix_nil.mp hsuf] at h; simpa [searchAt] using h
  | cons c cs ih =>
    rcases List.suffix_cons_iff.mp hsuf with h1 | h2
    · subst h1; simp [searchAt, h]
    · simp [searchAt, ih h2]

/-- A Russian phone match at the head of `s` contains an international phone
match at one of `s`'s suffixes. -/
theorem ruPhoneAt_gives_intl {s : PyStr} (h : ruPhoneAt s = true) :
    searchAt intlPhoneAt s = true := by
  rcases Bool.or_eq_true_iff.mp h with h1 | h2
  · unfold matchRuAlt1 at h1
    split at h1
    next r =>
      refine searchAt_of_suffix (t := r) ?_ ?_
      · exact (List.suffix_cons 45 r).trans (List.suffix_cons 56 (45 :: r))
      · simp [intlPhoneAt, h1]
    next => exact absurd h1 (by simp)
  · unfold matchRuAlt2 at h2
    split at h2
    next r =>
      refine searchAt_of_suffix (t := r) ?_ ?_
      · exact ((List.suffix_cons 45 r).trans
          ((List.suffix_cons 55 (45 :: r)).trans (List.suffix_cons 43 (55 :: 45 :: r))))
      · split at h2
        next r2 hd3 =>
          split at h2
          next r3 hd3' =>
            simp [intlPhoneAt, matchGroups34, hd3, hd3']
          next => exact absurd h2 (by simp)
        next => exact absurd h2 (by simp)
    next => exact absurd h2 (by simp)

/-- Any position matching the Russian phone pattern yields a position
matching the international phone pattern. -/
theorem search_ru_gives_intl : ∀ m : PyStr,
    searchAt ruPhoneAt m = true → searchAt intlPhoneAt m = true := by
  intro m
  induction m with
  | nil => intro h; exact absurd h (by decide)
  | cons c cs ih =>
    intro h
    rcases Bool.or_eq_true_iff.mp h with h1 | h2
    · exact ruPhoneAt_gives_intl h1
    · simp [searchAt, ih h2]

/-!
Claim theorems.
-/

/-- C1: for every message, `transform`'s row has exactly 21 entries, the
names of `get_feature_names` are exactly those of the spec-4.1 table in
order, and the row lists the 21 field values in that same order. -/
theorem extract_is_21_fields_in_order (m : PyStr) :
    (extractOne m).length = 21 ∧
    get_feature_names = specFieldTable.map Prod.fst ∧
    extractOne m = specFieldTable.map (fun p => p.2 m) := by
  refine ⟨rfl, by decide, rfl⟩

/-- C2 (code bug): a single-space message has no tokens, yet the code's
`avg_word_length` guard tests the string rather than the token list, so
`np.mean([])` is reached and the field is NaN (`none`), not 0. -/
theorem avg_word_length_whitespace_nan :
    pySplit (strLit " ") = [] ∧ f_avg_word_length (strLit " ") = none := by
  exact ⟨by decide, by decide⟩

/-- C3: extracting from the empty string yields the all-zero feature vector
(21 fields, each 0). -/
theorem extract_empty_all_zero :
    extractOne (strLit "") = List.replicate 21 (some 0) := by decide

/-- C4: the extractor's evaluation with Python's fallible division made
explicit never errors on any string: the error branch is unreachable, and
the checked run returns exactly the total extractor's row. -/
theorem extract_never_errors (m : PyStr) :
    extractChecked m = some (extractOne m) := by
  cases m with
  | nil => rfl
  | cons c cs =>
    have h : ((cs.length : ℚ) + 1) ≠ 0 := by positivity
    simp [extractChecked, extractOne, pyDiv, capsFrac, digitFrac, h]

/-- C6: batch extraction is the order-preserving elementwise map of the
single-message extractor, producing one row per input message. -/
theorem add_spam_features_elementwise (messages : List PyStr) :
    (add_spam_features messages).length = messages.length ∧
    add_spam_features messages = messages.map extractOne := by
  have h : add_spam_features messages = messages.map extractOne := by
    unfold add_spam_features transform
    simpa using foldl_append_rows messages []
  exact ⟨by rw [h]; simp, h⟩

/-- The WINNER message has exactly 11 uppercase characters among its 55
characters, so its caps ratio is exactly 11/55 = 1/5. -/
theorem winnerMsg_capsFrac : capsFrac winnerMsg = 1/5 := by
  have h1 : winnerMsg.countP isUpperCp = 11 := by decide
  have h2 : winnerMsg.length = 55 := by decide
  have h3 : winnerMsg ≠ [] := by decide
  unfold capsFrac
  rw [if_pos h3, h1, h2]
  norm_num

/-- C7 (counterexample): the claim as stated fails on the WINNER message —
its caps ratio is exactly 1/5 (11 uppercase letters in 55 characters), which
is not strictly greater than 0.2. -/
theorem winner_msg_claim_false :
    ¬ (f_has_url winnerMsg = 1 ∧ f_has_win_pattern winnerMsg = 1 ∧
       f_has_free_pattern winnerMsg = 1 ∧ 3 ≤ f_english_spam_words winnerMsg ∧
       (1 : ℚ)/5 < capsFrac winnerMsg) := by
  intro h
  have h5 := h.2.2.2.2
  rw [winnerMsg_capsFrac] at h5
  exact lt_irrefl _ h5

/-- C7 (amended): on the WINNER message, has_url=1, has_win_pattern=1,
has_free_pattern=1, english_spam_words ≥ 3, and caps_ratio equals exactly
0.2 (hence ≥ 0.2, but not > 0.2). -/
theorem winner_msg_features :
    f_has_url winnerMsg = 1 ∧ f_has_win_pattern winnerMsg = 1 ∧
    f_has_free_pattern winnerMsg = 1 ∧ 3 ≤ f_english_spam_words winnerMsg ∧
    capsFrac winnerMsg = 1/5 :=
  ⟨by decide, by decide, by decide, by decide, winnerMsg_capsFrac⟩

/-- C8: on the Russian urgent message, has_cyrillic=1, has_latin=0,
has_urgent_pattern=1, has_win_pattern=1 and russian_spam_words ≥ 2. -/
theorem urgent_ru_msg_features :
    f_has_cyrillic urgentMsgRu = 1 ∧ f_has_latin urgentMsgRu = 0 ∧
    f_has_urgent_pattern urgentMsgRu = 1 ∧ f_has_win_pattern urgentMsgRu = 1 ∧
    2 ≤ f_russian_spam_words urgentMsgRu := by decide

/-- C9: normalizing `"HELLO   World"` gives exactly `"hello world"`. -/
theorem clean_text_hello_world :
    clean_text (strLit "HELLO   World") = strLit "hello world" := by decide

/-- C10: whenever the has_russian_phone field is 1, the has_intl_phone field
is 1 as well: every Russian-phone match contains a digit-grouped match. -/
theorem russian_phone_implies_intl_phone (m : PyStr)
    (h : f_has_russian_phone m = 1) : f_has_intl_phone m = 1 := by
  unfold f_has_russian_phone at h
  unfold f_has_intl_phone
  by_cases hs : searchAt ruPhoneAt m = true
  · simp [search_ru_gives_intl m hs]
  · rw [if_neg hs] at h
    exact absurd h (by norm_num)

/-- C10 witness: a concrete message carrying a Russian phone number. -/
theorem russian_phone_implies_intl_phone_witness :
    f_has_russian_phone ruPhoneMsg = 1 ∧ f_has_intl_phone ruPhoneMsg = 1 :=
  ⟨by decide, russian_phone_implies_intl_phone ruPhoneMsg (by decide)⟩

/-!
Idempotence of `clean_text`, part 1: the URL-match predicate.
-/

/-- A character other than `'h'` and `'w'` cannot start a URL match. -/
theorem urlStart_cons_false {c : ℕ} (l : PyStr) (h1 : c ≠ 104) (h2 : c ≠ 119) :
    urlStart (c :: l) = false := by
  have e1 : (104 == c) = false := beq_eq_false_iff_ne.mpr (fun h => h1 h.symm)
  have e2 : (119 == c) = false := beq_eq_false_iff_ne.mpr (fun h => h2 h.symm)
  simp [urlStart, List.isPrefixOf, e1, e2]

/-- A whitespace character cannot start a URL match. -/
theorem urlStart_space_false {c : ℕ} (l : PyStr) (h : isSpace c = true) :
    urlStart (c :: l) = false := by
  refine urlStart_cons_false l ?_ ?_
  · intro e; rw [e] at h; exact absurd h (by decide)
  · intro e; rw [e] at h; exact absurd h (by decide)

/-- Literal-match stability under appending on the right. -/
theorem prefixOf_append {w t q : PyStr} (hp : List.isPrefixOf w t = true) :
    List.isPrefixOf w (t ++ q) = true := by
  rw [List.isPrefixOf_iff_prefix] at hp ⊢
  exact hp.trans (List.prefix_append t q)

/-- Non-space-lookahead stability under appending on the right. -/
theorem lookahead_append {t q : PyStr} {k : ℕ}
    (hn : nonspace ((t.drop k).headD 32) = true) :
    nonspace (((t ++ q).drop k).headD 32) = true := by
  have hne : t.drop k ≠ [] := by
    intro e; rw [e] at hn; exact absurd hn (by decide)
  obtain ⟨d, r, heq⟩ := List.exists_cons_of_ne_nil hne
  have hlen : k < t.length := by
    have h1 : (t.drop k).length = t.length - k := List.length_drop k t
    rw [heq] at h1
    simp only [List.length_cons] at h1
    omega
  rw [List.drop_append_eq_append_drop, Nat.sub_eq_zero_of_le (le_of_lt hlen),
    List.drop_zero, heq]
  rw [heq] at hn
  simpa using hn

/-- A URL match at the head survives appending on the right. -/
theorem urlStart_append {t q : PyStr} (h : urlStart t = true) :
    urlStart (t ++ q) = true := by
  unfold urlStart at h ⊢
  rcases Bool.or_eq_true_iff.mp h with h' | h'
  · obtain ⟨hp, hn⟩ := Bool.and_eq_true_iff.mp h'
    exact Bool.or_eq_true_iff.mpr (Or.inl
      (Bool.and_eq_true_iff.mpr ⟨prefixOf_append hp, lookahead_append hn⟩))
  · obtain ⟨hp, hn⟩ := Bool.and_eq_true_iff.mp h'
    exact Bool.or_eq_true_iff.mpr (Or.inr
      (Bool.and_eq_true_iff.mpr ⟨prefixOf_append hp, lookahead_append hn⟩))

/-- `hasUrl` holds exactly when some suffix begins with a URL match. -/
theorem hasUrl_iff {l : PyStr} :
    hasUrl l = true ↔ ∃ t, t <:+ l ∧ urlStart t = true := by
  induction l with
  | nil =>
    constructor
    · intro h; exact absurd h (by decide)
    · rintro ⟨t, hs, hu⟩
      rw [List.suffix_nil.mp hs] at hu
      exact absurd hu (by decide)
  | cons c cs ih =>
    simp only [hasUrl, Bool.or_eq_true_iff]
    constructor
    · rintro (h | h)
      · exact ⟨c :: cs, List.suffix_refl _, h⟩
      · obtain ⟨t, hs, hu⟩ := ih.mp h
        exact ⟨t, hs.trans (List.suffix_cons c cs), hu⟩
    · rintro ⟨t, hs, hu⟩
      rcases List.suffix_cons_iff.mp hs with rfl | hs'
      · exact Or.inl hu
      · exact Or.inr (ih.mpr ⟨t, hs', hu⟩)

/-- A contiguous piece of a URL-free string is URL-free. -/
theorem hasUrl_infix {l' l : PyStr} (h : l' <:+: l) (hl : hasUrl l = false) :
    hasUrl l' = false := by
  by_contra hne
  have h' : hasUrl l' = true := by
    revert hne; cases hasUrl l' <;> simp
  obtain ⟨t, hs, hu⟩ := hasUrl_iff.mp h'
  obtain ⟨p, q, hpq⟩ := h
  obtain ⟨u, hu'⟩ := hs
  have hsub : (t ++ q) <:+ l := by
    refine ⟨p ++ u, ?_⟩
    rw [← hpq, ← hu']
    simp
  have : hasUrl l = true := hasUrl_iff.mpr ⟨t ++ q, hsub, urlStart_append hu⟩
  rw [hl] at this
  exact Bool.false_ne_true this

/-!
Idempotence of `clean_text`, part 2: URL removal leaves no URL match behind.
The key tool is `urlStart_pull`: for a scanner `f` that reproduces any
non-space head verbatim, a URL match on `c :: f cs` forces one on `c :: cs`.
-/

/-- For head-faithful scanners, a URL match over the output pulls back to the
input: the up-to-four lookahead characters of the match are all non-space, so
each is reproduced from the input one step at a time. -/
theorem urlStart_pull (f : PyStr → PyStr)
    (hf : ∀ l x r, f l = x :: r → nonspace x = true →
      ∃ l', l = x :: l' ∧ r = f l')
    {c : ℕ} {cs : PyStr} (h : urlStart (c :: f cs) = true) :
    urlStart (c :: cs) = true := by
  unfold urlStart at h
  rcases Bool.or_eq_true_iff.mp h with h' | h'
  · obtain ⟨hp, hn⟩ := Bool.and_eq_true_iff.mp h'
    simp only [List.isPrefixOf, Bool.and_eq_true_iff, beq_iff_eq] at hp
    obtain ⟨hc, hp2⟩ := hp
    rw [List.isPrefixOf_iff_prefix] at hp2
    obtain ⟨rest, hrest⟩ := hp2
    have hdrop : ((c :: f cs).drop 4) = rest := by
      rw [show (c :: f cs).drop 4 = (f cs).drop 3 from rfl, ← hrest]
      rfl
    rw [hdrop] at hn
    have hne : rest ≠ [] := by
      intro e; rw [e] at hn; exact absurd hn (by decide)
    obtain ⟨d, rest2, hdr⟩ := List.exists_cons_of_ne_nil hne
    rw [hdr] at hn hrest
    simp only [List.headD_cons] at hn
    have e1 : f cs = 116 :: (116 :: 112 :: d :: rest2) := by
      rw [← hrest]; rfl
    obtain ⟨cs1, hcs1, hr1⟩ := hf cs 116 _ e1 (by decide)
    obtain ⟨cs2, hcs2, hr2⟩ := hf cs1 116 _ hr1.symm (by decide)
    obtain ⟨cs3, hcs3, hr3⟩ := hf cs2 112 _ hr2.symm (by decide)
    obtain ⟨cs4, hcs4, _⟩ := hf cs3 d _ hr3.symm hn
    rw [← hc, hcs1, hcs2, hcs3, hcs4]
    unfold urlStart
    simp [List.isPrefixOf, hn]
  · obtain ⟨hp, hn⟩ := Bool.and_eq_true_iff.mp h'
    simp only [List.isPrefixOf, Bool.and_eq_true_iff, beq_iff_eq] at hp
    obtain ⟨hc, hp2⟩ := hp
    rw [List.isPrefixOf_iff_prefix] at hp2
    obtain ⟨rest, hrest⟩ := hp2
    have hdrop : ((c :: f cs).drop 3) = rest := by
      rw [show (c :: f cs).drop 3 = (f cs).drop 2 from rfl, ← hrest]
      rfl
    rw [hdrop] at hn
    have hne : rest ≠ [] := by
      intro e; rw [e] at hn; exact absurd hn (by decide)
    obtain ⟨d, rest2, hdr⟩ := List.exists_cons_of_ne_nil hne
    rw [hdr] at hn hrest
    simp only [List.headD_cons] at hn
    have e1 : f cs = 119 :: (119 :: d :: rest2) := by
      rw [← hrest]; rfl
    obtain ⟨cs1, hcs1, hr1⟩ := hf cs 119 _ e1 (by decide)
    obtain ⟨cs2, hcs2, hr2⟩ := hf cs1 119 _ hr1.symm (by decide)
    obtain ⟨cs3, hcs3, _⟩ := hf cs2 d _ hr2.symm hn
    rw [← hc, hcs1, hcs2, hcs3]
    unfold urlStart
    simp [List.isPrefixOf, hn]

/-- While the scanner is consuming a match, the next emitted character (if
any) is whitespace. -/
theorem removeUrlsAux_true_skip : ∀ l : PyStr,
    removeUrlsAux true l = [] ∨
    ∃ d r, removeUrlsAux true l = d :: r ∧ isSpace d = true := by
  intro l
  induction l with
  | nil => left; rfl
  | cons c cs ih =>
    cases hsp : isSpace c with
    | false =>
      rw [show removeUrlsAux true (c :: cs) = removeUrlsAux true cs from by
        simp [removeUrlsAux, nonspace, hsp]]
      exact ih
    | true =>
      have hu : urlStart (c :: cs) = false := urlStart_space_false cs hsp
      right
      refine ⟨c, removeUrlsAux false cs, ?_, hsp⟩
      simp [removeUrlsAux, nonspace, hsp, hu]

/-- The URL-removal scanner reproduces a non-space output head from the
input head. -/
theorem removeUrls_head_ns : ∀ (l : PyStr) (x : ℕ) (r : PyStr),
    removeUrlsAux false l = x :: r → nonspace x = true →
    ∃ l', l = x :: l' ∧ r = removeUrlsAux false l' := by
  intro l x r heq hx
  cases l with
  | nil => simp [removeUrlsAux] at heq
  | cons e l2 =>
    by_cases hu : urlStart (e :: l2) = true
    · rw [show removeUrlsAux false (e :: l2) = removeUrlsAux true l2 from by
        simp [removeUrlsAux, hu]] at heq
      rcases removeUrlsAux_true_skip l2 with h0 | ⟨d, rr, hdr, hds⟩
      · rw [h0] at heq; exact absurd heq (by simp)
      · rw [hdr] at heq
        injection heq with h1 _
        exfalso
        rw [h1] at hds
        simp [nonspace, hds] at hx
    · rw [show removeUrlsAux false (e :: l2) = e :: removeUrlsAux false l2 from by
        simp [removeUrlsAux, hu]] at heq
      injection heq with h1 h2
      exact ⟨l2, by rw [h1], h2.symm⟩

/-- URL removal leaves a string with no URL match at any position. -/
theorem removeUrls_no_url : ∀ (l : PyStr) (b : Bool),
    hasUrl (removeUrlsAux b l) = false := by
  intro l
  induction l with
  | nil => intro b; rfl
  | cons c cs ih =>
    intro b
    cases b with
    | true =>
      cases hsp : isSpace c with
      | false =>
        rw [show removeUrlsAux true (c :: cs) = removeUrlsAux true cs from by
          simp [removeUrlsAux, nonspace, hsp]]
        exact ih true
      | true =>
        have hu : urlStart (c :: cs) = false := urlStart_space_false cs hsp
        rw [show removeUrlsAux true (c :: cs) = c :: removeUrlsAux false cs from by
          simp [removeUrlsAux, nonspace, hsp, hu]]
        have h1 : urlStart (c :: removeUrlsAux false cs) = false :=
          urlStart_space_false _ hsp
        simp [hasUrl, h1, ih false]
    | false =>
      by_cases hu : urlStart (c :: cs) = true
      · rw [show removeUrlsAux false (c :: cs) = removeUrlsAux true cs from by
          simp [removeUrlsAux, hu]]
        exact ih true
      · rw [show removeUrlsAux false (c :: cs) = c :: removeUrlsAux false cs from by
          simp [removeUrlsAux, hu]]
        have h1 : urlStart (c :: removeUrlsAux false cs) = false := by
          by_contra hcon
          have h2 : urlStart (c :: removeUrlsAux false cs) = true := by
            revert hcon; cases urlStart (c :: removeUrlsAux false cs) <;> simp
          exact hu (urlStart_pull (removeUrlsAux false) removeUrls_head_ns h2)
        simp [hasUrl, h1, ih false]

/-- On a URL-free string, URL removal is the identity. -/
theorem removeUrls_id_of_no_url : ∀ l : PyStr,
    hasUrl l = false → removeUrlsAux false l = l := by
  intro l
  induction l with
  | nil => intro _; rfl
  | cons c cs ih =>
    intro h
    simp only [hasUrl, Bool.or_eq_false_iff] at h
    rw [show removeUrlsAux false (c :: cs) = c :: removeUrlsAux false cs from by
      simp [removeUrlsAux, h.1]]
    rw [ih h.2]

/-!
Idempotence of `clean_text`, part 3: whitespace collapsing — its output
invariants (all whitespace is `' '`, no adjacent whitespace), preservation of
URL-freeness, and identity on strings already in that normal form.
-/

/-- The collapsing scanner reproduces a non-space output head from the input
head. -/
theorem collapse_head_ns : ∀ (l : PyStr) (x : ℕ) (r : PyStr),
    collapseAux false l = x :: r → nonspace x = true →
    ∃ l', l = x :: l' ∧ r = collapseAux false l' := by
  intro l x r heq hx
  cases l with
  | nil => simp [collapseAux] at heq
  | cons e l2 =>
    cases hsp : isSpace e with
    | true =>
      rw [show collapseAux false (e :: l2) = 32 :: collapseAux true l2 from by
        simp [collapseAux, hsp]] at heq
      injection heq with h1 _
      exfalso
      rw [← h1] at hx
      exact absurd hx (by decide)
    | false =>
      rw [show collapseAux false (e :: l2) = e :: collapseAux false l2 from by
        simp [collapseAux, hsp]] at heq
      injection heq with h1 h2
      exact ⟨l2, by rw [h1], h2.symm⟩

/-- Collapsing whitespace cannot create a URL match. -/
theorem collapse_no_url : ∀ (l : PyStr) (b : Bool),
    hasUrl l = false → hasUrl (collapseAux b l) = false := by
  intro l
  induction l with
  | nil => intro b _; cases b <;> rfl
  | cons c cs ih =>
    intro b h
    simp only [hasUrl, Bool.or_eq_false_iff] at h
    cases hsp : isSpace c with
    | true =>
      cases b with
      | true =>
        rw [show collapseAux true (c :: cs) = collapseAux true cs from by
          simp [collapseAux, hsp]]
        exact ih true h.2
      | false =>
        rw [show collapseAux false (c :: cs) = 32 :: collapseAux true cs from by
          simp [collapseAux, hsp]]
        have h1 : urlStart (32 :: collapseAux true cs) = false :=
          urlStart_space_false _ (by decide)
        simp [hasUrl, h1, ih true h.2]
    | false =>
      rw [show collapseAux b (c :: cs) = c :: collapseAux false cs from by
        simp [collapseAux, hsp]]
      have h1 : urlStart (c :: collapseAux false cs) = false := by
        by_contra hcon
        have h2 : urlStart (c :: collapseAux false cs) = true := by
          revert hcon; cases urlStart (c :: collapseAux false cs) <;> simp
        rw [urlStart_pull (collapseAux false) collapse_head_ns h2] at h
        exact absurd h.1 (by decide)
      simp [hasUrl, h1, ih false h.2]

/-- Every whitespace character in collapsed output is the plain space. -/
theorem collapse_spacesOk : ∀ (l : PyStr) (b : Bool),
    spacesOk (collapseAux b l) = true := by
  intro l
  induction l with
  | nil => intro b; cases b <;> rfl
  | cons c cs ih =>
    intro b
    cases hsp : isSpace c with
    | false =>
      rw [show collapseAux b (c :: cs) = c :: collapseAux false cs from by
        simp [collapseAux, hsp]]
      simp [spacesOk, hsp, ih false]
    | true =>
      cases b with
      | true =>
        rw [show collapseAux true (c :: cs) = collapseAux true cs from by
          simp [collapseAux, hsp]]
        exact ih true
      | false =>
        rw [show collapseAux false (c :: cs) = 32 :: collapseAux true cs from by
          simp [collapseAux, hsp]]
        have h32 : (!isSpace 32 || (32 : ℕ) == 32) = true := by decide
        simp [spacesOk, h32, ih true]

/-- While inside a whitespace run, the next emitted character (if any) is
non-space. -/
theorem collapseAux_true_head : ∀ l : PyStr,
    collapseAux true l = [] ∨
    ∃ d r, collapseAux true l = d :: r ∧ isSpace d = false := by
  intro l
  induction l with
  | nil => left; rfl
  | cons c cs ih =>
    cases hsp : isSpace c with
    | true =>
      rw [show collapseAux true (c :: cs) = collapseAux true cs from by
        simp [collapseAux, hsp]]
      exact ih
    | false =>
      right
      exact ⟨c, collapseAux false cs, by simp [collapseAux, hsp], hsp⟩

/-- Collapsed output never has two adjacent whitespace characters. -/
theorem collapse_noAdj : ∀ (l : PyStr) (b : Bool),
    noAdj (collapseAux b l) = true := by
  intro l
  induction l with
  | nil => intro b; cases b <;> rfl
  | cons c cs ih =>
    intro b
    cases hsp : isSpace c with
    | false =>
      rw [show collapseAux b (c :: cs) = c :: collapseAux false cs from by
        simp [collapseAux, hsp]]
      cases hX : collapseAux false cs with
      | nil => rfl
      | cons d r =>
        have hr : noAdj (d :: r) = true := by rw [← hX]; exact ih false
        simp [noAdj, hsp, hr]
    | true =>
      cases b with
      | true =>
        rw [show collapseAux true (c :: cs) = collapseAux true cs from by
          simp [collapseAux, hsp]]
        exact ih true
      | false =>
        rw [show collapseAux false (c :: cs) = 32 :: collapseAux true cs from by
          simp [collapseAux, hsp]]
        rcases collapseAux_true_head cs with h0 | ⟨d, r, he, hd⟩
        · rw [h0]; rfl
        · have hr : noAdj (d :: r) = true := by rw [← he]; exact ih true
          rw [he]
          simp [noAdj, hd, hr]

/-- Tail of an adjacency-free string is adjacency-free. -/
theorem noAdj_tail {x : ℕ} {xs : PyStr} (h : noAdj (x :: xs) = true) :
    noAdj xs = true := by
  cases xs with
  | nil => rfl
  | cons y ys =>
    simp only [noAdj, Bool.and_eq_true_iff] at h
    exact h.2

/-- In a `spacesOk` string, a whitespace head is the plain space. -/
theorem spacesOk_head {c : ℕ} {cs : PyStr} (h : spacesOk (c :: cs) = true)
    (hsp : isSpace c = true) : c = 32 := by
  simp only [spacesOk, Bool.and_eq_true_iff] at h
  rcases Bool.or_eq_true_iff.mp h.1 with h' | h'
  · rw [hsp] at h'; exact absurd h' (by decide)
  · exact beq_iff_eq.mp h'

/-- Tail of a `spacesOk` string is `spacesOk`. -/
theorem spacesOk_tail {c : ℕ} {cs : PyStr} (h : spacesOk (c :: cs) = true) :
    spacesOk cs = true := by
  simp only [spacesOk, Bool.and_eq_true_iff] at h
  exact h.2

/-- On a string whose whitespace is normalized (all `' '`, none adjacent),
collapsing is the identity; moreover if the head is non-space the in-run
scanner also leaves the string unchanged. -/
theorem collapse_id_strong : ∀ l : PyStr, spacesOk l = true → noAdj l = true →
    collapseAux false l = l ∧
    (isSpace (l.headD 48) = false → collapseAux true l = l) := by
  intro l
  induction l with
  | nil => exact fun _ _ => ⟨rfl, fun _ => rfl⟩
  | cons c cs ih =>
    intro hs hn
    obtain ⟨ih1, ih2⟩ := ih (spacesOk_tail hs) (noAdj_tail hn)
    cases hsp : isSpace c with
    | false =>
      constructor
      · rw [show collapseAux false (c :: cs) = c :: collapseAux false cs from by
          simp [collapseAux, hsp]]
        rw [ih1]
      · intro _
        rw [show collapseAux true (c :: cs) = c :: collapseAux false cs from by
          simp [collapseAux, hsp]]
        rw [ih1]
    | true =>
      have hc32 : c = 32 := spacesOk_head hs hsp
      constructor
      · rw [show collapseAux false (c :: cs) = 32 :: collapseAux true cs from by
          simp [collapseAux, hsp]]
        cases cs with
        | nil => rw [hc32]; rfl
        | cons d cs2 =>
          have hd : isSpace d = false := by
            simp only [noAdj, Bool.and_eq_true_iff] at hn
            have h1 := hn.1
            rw [hsp] at h1
            revert h1; cases isSpace d <;> simp
          rw [ih2 (by simpa using hd), hc32]
      · intro hhead
        simp only [List.headD_cons] at hhead
        rw [hhead] at hsp
        exact absurd hsp (by simp)

/-!
Idempotence of `clean_text`, part 4: lowercase stability, stripping, and
transport of the invariants through contiguous pieces.
-/

/-- Lowercasing a code point twice is the same as lowercasing it once. -/
theorem charLower_idem (c : ℕ) : charLower (charLower c) = charLower c := by
  unfold charLower
  split_ifs <;> omega

/-- A map that fixes every member of a list leaves the list unchanged. -/
theorem map_id_of_fixed {f : ℕ → ℕ} : ∀ {l : PyStr},
    (∀ a ∈ l, f a = a) → l.map f = l := by
  intro l
  induction l with
  | nil => intro _; rfl
  | cons c cs ih =>
    intro h
    simp only [List.map_cons]
    rw [h c (List.mem_cons_self c cs), ih (fun a ha => h a (List.mem_cons_of_mem c ha))]

/-- URL removal only ever emits characters of its input. -/
theorem mem_removeUrlsAux {a : ℕ} : ∀ {l : PyStr} {b : Bool},
    a ∈ removeUrlsAux b l → a ∈ l := by
  intro l
  induction l with
  | nil => intro b h; simp [removeUrlsAux] at h
  | cons c cs ih =>
    intro b h
    by_cases h1 : (b && nonspace c) = true
    · rw [show removeUrlsAux b (c :: cs) = removeUrlsAux true cs from by
        cases b with
        | true => simp [removeUrlsAux, Bool.and_eq_true_iff.mp h1]
        | false => exact absurd h1 (by simp)] at h
      exact List.mem_cons_of_mem c (ih h)
    · by_cases h2 : urlStart (c :: cs) = true
      · rw [show removeUrlsAux b (c :: cs) = removeUrlsAux true cs from by
          simp only [removeUrlsAux]
          rw [if_neg (by simpa using h1), if_pos h2]] at h
        exact List.mem_cons_of_mem c (ih h)
      · rw [show removeUrlsAux b (c :: cs) = c :: removeUrlsAux false cs from by
          simp only [removeUrlsAux]
          rw [if_neg (by simpa using h1), if_neg (by simpa using h2)]] at h
        rcases List.mem_cons.mp h with rfl | h'
        · exact List.mem_cons_self a cs
        · exact List.mem_cons_of_mem c (ih h')

/-- Whitespace collapsing only ever emits input characters or `' '`. -/
theorem mem_collapseAux {a : ℕ} : ∀ {l : PyStr} {b : Bool},
    a ∈ collapseAux b l → a ∈ l ∨ a = 32 := by
  intro l
  induction l with
  | nil => intro b h; simp [collapseAux] at h
  | cons c cs ih =>
    intro b h
    cases hsp : isSpace c with
    | false =>
      rw [show collapseAux b (c :: cs) = c :: collapseAux false cs from by
        simp [collapseAux, hsp]] at h
      rcases List.mem_cons.mp h with rfl | h'
      · exact Or.inl (List.mem_cons_self a cs)
      · rcases ih h' with h'' | h''
        · exact Or.inl (List.mem_cons_of_mem c h'')
        · exact Or.inr h''
    | true =>
      cases b with
      | true =>
        rw [show collapseAux true (c :: cs) = collapseAux true cs from by
          simp [collapseAux, hsp]] at h
        rcases ih h with h'' | h''
        · exact Or.inl (List.mem_cons_of_mem c h'')
        · exact Or.inr h''
      | false =>
        rw [show collapseAux false (c :: cs) = 32 :: collapseAux true cs from by
          simp [collapseAux, hsp]] at h
        rcases List.mem_cons.mp h with rfl | h'
        · exact Or.inr rfl
        · rcases ih h' with h'' | h''
          · exact Or.inl (List.mem_cons_of_mem c h'')
          · exact Or.inr h''

/-- `spacesOk` splits over append. -/
theorem spacesOk_append : ∀ {x y : PyStr},
    spacesOk (x ++ y) = (spacesOk x && spacesOk y) := by
  intro x y
  induction x with
  | nil => simp [spacesOk]
  | cons c cs ih => simp [spacesOk, ih, Bool.and_assoc]

/-- `spacesOk` restricts to contiguous pieces. -/
theorem spacesOk_infix {l' l : PyStr} (h : l' <:+: l) (hl : spacesOk l = true) :
    spacesOk l' = true := by
  obtain ⟨p, q, rfl⟩ := h
  rw [spacesOk_append, spacesOk_append] at hl
  simp only [Bool.and_eq_true_iff] at hl
  exact hl.1.2

/-- `noAdj` restricts to the right part of an append. -/
theorem noAdj_append_right : ∀ (x y : PyStr), noAdj (x ++ y) = true → noAdj y = true := by
  intro x
  induction x with
  | nil => intro y h; simpa using h
  | cons c cs ih =>
    intro y h
    refine ih y ?_
    exact noAdj_tail (by simpa using h)

/-- `noAdj` restricts to the left part of an append. -/
theorem noAdj_append_left : ∀ (x y : PyStr), noAdj (x ++ y) = true → noAdj x = true
  | [], _, _ => rfl
  | [c], _, _ => rfl
  | c :: d :: x', y, h => by
    simp only [List.cons_append, noAdj, Bool.and_eq_true_iff] at h
    have hrec : noAdj (d :: x') = true :=
      noAdj_append_left (d :: x') y (by simpa using h.2)
    simp [noAdj, h.1, hrec]

/-- `noAdj` restricts to contiguous pieces. -/
theorem noAdj_infix {l' l : PyStr} (h : l' <:+: l) (hl : noAdj l = true) :
    noAdj l' = true := by
  obtain ⟨p, q, rfl⟩ := h
  have h1 : noAdj (l' ++ q) = true := noAdj_append_right p (l' ++ q) (by simpa using hl)
  exact noAdj_append_left l' q h1

/-- What remains after `dropWhile` starts with a failing character, if anything. -/
theorem dropWhile_head_not (p : ℕ → Bool) : ∀ l : PyStr,
    l.dropWhile p = [] ∨ ∃ x xs, l.dropWhile p = x :: xs ∧ p x = false := by
  intro l
  induction l with
  | nil => left; rfl
  | cons c cs ih =>
    cases hp : p c with
    | true => rw [List.dropWhile_cons, if_pos hp]; exact ih
    | false =>
      right
      exact ⟨c, cs, by rw [List.dropWhile_cons, if_neg (by simp [hp])], hp⟩

/-- `rstrip` yields a left piece of its input. -/
theorem rstrip_left_piece (l : PyStr) : rstrip l <+: l := by
  unfold rstrip
  obtain ⟨u, hu⟩ := List.dropWhile_suffix (l := l.reverse) isSpace
  refine ⟨u.reverse, ?_⟩
  have := congrArg List.reverse hu
  simpa using this

/-- The strip of a string is one of its contiguous pieces. -/
theorem stripStr_infix (s : PyStr) : stripStr s <:+: s :=
  ((rstrip_left_piece (lstrip s)).isInfix).trans ((List.dropWhile_suffix isSpace).isInfix)

/-- A string whose head is non-space (or which is empty) is `lstrip`-fixed;
`48` is a non-space default for the empty case. -/
theorem lstrip_id {l : PyStr} (h : isSpace (l.headD 48) = false) : lstrip l = l := by
  cases l with
  | nil => rfl
  | cons c cs =>
    simp only [List.headD_cons] at h
    unfold lstrip
    rw [List.dropWhile_cons, if_neg (by simp [h])]

/-- A string whose last character is non-space (or which is empty) is
`rstrip`-fixed. -/
theorem rstrip_id {l : PyStr} (h : isSpace (l.reverse.headD 48) = false) :
    rstrip l = l := by
  unfold rstrip
  have h1 : l.reverse.dropWhile isSpace = l.reverse := by
    cases hr : l.reverse with
    | nil => rfl
    | cons c cs =>
      rw [hr] at h
      simp only [List.headD_cons] at h
      rw [List.dropWhile_cons, if_neg (by simp [h])]
  rw [h1, List.reverse_reverse]

/-- `str.strip` is idempotent. -/
theorem stripStr_idem (m : PyStr) : stripStr (stripStr m) = stripStr m := by
  have hlast : isSpace ((stripStr m).reverse.headD 48) = false := by
    have hrev : (stripStr m).reverse = (lstrip m).reverse.dropWhile isSpace := by
      unfold stripStr rstrip
      rw [List.reverse_reverse]
    rw [hrev]
    rcases dropWhile_head_not isSpace (lstrip m).reverse with h0 | ⟨x, xs, he, hx⟩
    · rw [h0]; decide
    · rw [he]; simpa using hx
  have hhead : isSpace ((stripStr m).headD 48) = false := by
    cases hN : stripStr m with
    | nil => decide
    | cons x r =>
      obtain ⟨q, hq⟩ := rstrip_left_piece (lstrip m)
      rw [show stripStr m = rstrip (lstrip m) from rfl] at hN
      rw [hN] at hq
      rcases dropWhile_head_not isSpace m with h0 | ⟨y, ys, he, hy⟩
      · rw [show lstrip m = m.dropWhile isSpace from rfl, h0] at hq
        exact absurd hq.symm (by simp)
      · rw [show lstrip m = m.dropWhile isSpace from rfl, he] at hq
        have hxy : y = x := by
          have := hq.symm
          injection this
        simp only [List.headD_cons]
        rw [← hxy]
        exact hy
  unfold stripStr
  rw [show lstrip (rstrip (lstrip m)) = rstrip (lstrip m) from lstrip_id hhead]
  exact rstrip_id hlast

/-- C5: `clean_text` is idempotent: lowercasing is stable on its output, the
output contains no URL match, its whitespace is already collapsed, and its
ends are already stripped, so a second pass changes nothing. -/
theorem clean_text_idempotent (t : PyStr) :
    clean_text (clean_text t) = clean_text t := by
  have hU0 : hasUrl (removeUrls (pyLower t)) = false :=
    removeUrls_no_url (pyLower t) false
  have hU1 : hasUrl (collapse (removeUrls (pyLower t))) = false :=
    collapse_no_url _ false hU0
  have hInf : clean_text t <:+: collapse (removeUrls (pyLower t)) :=
    stripStr_infix _
  have hUN : hasUrl (clean_text t) = false := hasUrl_infix hInf hU1
  have hSN : spacesOk (clean_text t) = true :=
    spacesOk_infix hInf (collapse_spacesOk _ false)
  have hNN : noAdj (clean_text t) = true :=
    noAdj_infix hInf (collapse_noAdj _ false)
  have hlow : pyLower (clean_text t) = clean_text t := by
    apply map_id_of_fixed
    intro a ha
    have ha1 : a ∈ collapse (removeUrls (pyLower t)) := hInf.sublist.subset ha
    rcases mem_collapseAux ha1 with ha2 | ha2
    · have ha3 : a ∈ pyLower t := mem_removeUrlsAux ha2
      obtain ⟨b, _, rfl⟩ := List.mem_map.mp ha3
      exact charLower_idem b
    · rw [ha2]; decide
  have hrem : removeUrls (clean_text t) = clean_text t :=
    removeUrls_id_of_no_url _ hUN
  have hcol : collapse (clean_text t) = clean_text t :=
    (collapse_id_strong _ hSN hNN).1
  have hstr : stripStr (clean_text t) = clean_text t :=
    stripStr_idem (collapse (removeUrls (pyLower t)))
  show stripStr (collapse (removeUrls (pyLower (clean_text t)))) = clean_text t
  rw [hlow, hrem, hcol, hstr]
